import Mathlib

/-!
Verification of the consumer core of kafka-pixy (`consumer/consumer.go`)
against its natural-language specification.

The Go code is shallowly embedded: pure functions become Lean functions,
event loops become step functions over explicit event lists, Go maps with
nil-as-empty lookup semantics become total functions with `∅` default.
Go `int32` partition ids are modelled as unbounded `Int` (the code performs
no arithmetic on them, only comparisons, so signed 32-bit order coincides
with `Int` order on all representable values); Go `int` counters derived
from slice lengths are modelled as `Nat`.
-/

namespace KafkaPixy

/-! ## Partition assignment (`assignPartitionsToSubscribers`, consumer.go:417-448)

`sort.Sort(Int32Slice(partitions))` sorts the slice ascending in place and
`sort.Sort(sort.StringSlice(subscribers))` sorts it lexicographically in
place (Go string `<` is byte-wise lexicographic, which coincides with
character-wise lexicographic order for UTF-8 encoded strings).  Go's
`sort.Sort` is unstable, but for slices of ordered plain values (no attached
data) the resulting slice is the unique sorted permutation of the input, so
any sorting algorithm models its observable result exactly; we use
`insertionSort` which computes by structural recursion. -/

/-- Lexicographic comparison of character lists, as Go compares strings. -/
def goCharListLe : List Char → List Char → Bool
  | [], _ => true
  | _ :: _, [] => false
  | a :: as, b :: bs => if a < b then true else if b < a then false else goCharListLe as bs

/-- Go's `s <= t` on strings. -/
def goStringLe (a b : String) : Bool :=
  goCharListLe a.data b.data

/-- The ordering relation used to sort subscriber ids. -/
def GoStrLe (a b : String) : Prop :=
  goStringLe a b = true

instance : DecidableRel GoStrLe := fun a b => instDecidableEqBool (goStringLe a b) true

lemma goCharListLe_total : ∀ as bs : List Char,
    goCharListLe as bs = true ∨ goCharListLe bs as = true := by
  intro as
  induction as with
  | nil => intro bs; left; rfl
  | cons a as ih =>
    intro bs
    cases bs with
    | nil => right; rfl
    | cons b bs =>
      rcases lt_trichotomy a b with h | h | h
      · left; simp [goCharListLe, h]
      · subst h
        rcases ih bs with h' | h' <;> [left; right] <;>
          simpa [goCharListLe, lt_irrefl] using h'
      · right; simp [goCharListLe, h]

lemma goCharListLe_trans : ∀ as bs cs : List Char,
    goCharListLe as bs = true → goCharListLe bs cs = true →
    goCharListLe as cs = true := by
  intro as
  induction as with
  | nil => intro bs cs _ _; rfl
  | cons a as ih =>
    intro bs cs hab hbc
    cases bs with
    | nil => simp [goCharListLe] at hab
    | cons b bs =>
      cases cs with
      | nil => simp [goCharListLe] at hbc
      | cons c cs =>
        rcases lt_trichotomy a b with h1 | h1 | h1
        · rcases lt_trichotomy b c with h2 | h2 | h2
          · simp [goCharListLe, lt_trans h1 h2]
          · subst h2; simp [goCharListLe, h1]
          · simp [goCharListLe, not_lt_of_gt h2, h2] at hbc
        · subst h1
          rcases lt_trichotomy a c with h2 | h2 | h2
          · simp [goCharListLe, h2]
          · subst h2
            simp only [goCharListLe, lt_irrefl, if_neg, ite_false] at hab hbc ⊢
            simpa using ih bs cs (by simpa using hab) (by simpa using hbc)
          · simp [goCharListLe, not_lt_of_gt h2, h2] at hbc
        · simp [goCharListLe, not_lt_of_gt h1, h1] at hab

instance : IsTotal String GoStrLe :=
  ⟨fun a b => goCharListLe_total a.data b.data⟩

instance : IsTrans String GoStrLe :=
  ⟨fun _ _ _ hab hbc => goCharListLe_trans _ _ _ hab hbc⟩

/-- `sort.Sort(Int32Slice(partitions))`: ascending by value. -/
def sortPartitions (partitions : List Int) : List Int :=
  partitions.insertionSort (· ≤ ·)

/-- `sort.Sort(sort.StringSlice(subscribers))`: lexicographic. -/
def sortSubscribers (subscribers : List String) : List String :=
  subscribers.insertionSort GoStrLe

/-- The inner loop of `assignPartitionsToSubscribers`: for each partition of
the current block, `partitionsToSubscribers[subscriberID][partition] = true`
(creating the inner map when absent; absent keys read as the empty set). -/
def addPartitions (m : String → Finset Int) (subscriberID : String)
    (block : List Int) : String → Finset Int :=
  block.foldl
    (fun acc partition => fun t =>
      if t = subscriberID then insert partition (acc subscriberID) else acc t)
    m

/-- The outer loop of `assignPartitionsToSubscribers` (consumer.go:431-446):
`b` is the Go variable `begin`, `e` is `end`; each subscriber receives the
slice `partitions[begin:end]` where `end = begin + partitionsPerSubscriber`,
incremented once more while `extra` is nonzero. -/
def assignLoop (partitions : List Int) (partitionsPerSubscriber : Nat) :
    List String → Nat → Nat → (String → Finset Int) → (String → Finset Int)
  | [], _, _, m => m
  | subscriberID :: rest, extra, b, m =>
    let e := b + partitionsPerSubscriber + (if extra ≠ 0 then 1 else 0)
    let extra' := if extra ≠ 0 then extra - 1 else extra
    let block := (partitions.drop b).take (e - b)
    assignLoop partitions partitionsPerSubscriber rest extra' e
      (addPartitions m subscriberID block)

/-- `assignPartitionsToSubscribers` (consumer.go:417-448), with the final
state of both (in-place sorted) slice arguments made explicit, since Go
sorts the caller's slices as a side effect.  Returns
`(partitions', subscribers', partitionsToSubscribers)`. -/
def assignPartitionsToSubscribersFull (partitions : List Int)
    (subscribers : List String) :
    List Int × List String × (String → Finset Int) :=
  let partitionCount := partitions.length
  let subscriberCount := subscribers.length
  if partitionCount = 0 ∨ subscriberCount = 0 then
    -- `return nil`: looking any subscriber up in the nil map yields the
    -- empty set; the argument slices are untouched.
    (partitions, subscribers, fun _ => ∅)
  else
    let partitions' := sortPartitions partitions
    let subscribers' := sortSubscribers subscribers
    let partitionsPerSubscriber := partitionCount / subscriberCount
    let extra := partitionCount - subscriberCount * partitionsPerSubscriber
    (partitions', subscribers',
      assignLoop partitions' partitionsPerSubscriber subscribers' extra 0
        (fun _ => ∅))

/-- The returned `map[string]map[int32]bool`, read as a total function with
absent keys mapped to the empty set. -/
def assignPartitionsToSubscribers (partitions : List Int)
    (subscribers : List String) : String → Finset Int :=
  (assignPartitionsToSubscribersFull partitions subscribers).2.2

lemma addPartitions_apply (m : String → Finset Int) (s : String)
    (block : List Int) (t : String) :
    addPartitions m s block t = if t = s then m s ∪ block.toFinset else m t := by
  induction block generalizing m with
  | nil => by_cases h : t = s <;> simp [addPartitions, h]
  | cons p bs ih =>
    show addPartitions
      (fun t => if t = s then insert p (m s) else m t) s bs t = _
    rw [ih]
    by_cases h : t = s <;> simp [h, Finset.union_insert, Finset.insert_union]

lemma assignLoop_cons (ps : List Int) (q : Nat) (s : String)
    (rest : List String) (extra b : Nat) (m : String → Finset Int) :
    assignLoop ps q (s :: rest) extra b m =
      assignLoop ps q rest (if extra ≠ 0 then extra - 1 else extra)
        (b + q + (if extra ≠ 0 then 1 else 0))
        (addPartitions m s
          ((ps.drop b).take (q + (if extra ≠ 0 then 1 else 0)))) := by
  have h1 : b + q + (if extra ≠ 0 then 1 else 0) - b
      = q + (if extra ≠ 0 then 1 else 0) := by
    omega
  show assignLoop ps q rest _ _
      (addPartitions m s
        ((ps.drop b).take (b + q + (if extra ≠ 0 then 1 else 0) - b))) = _
  rw [h1]

lemma assignLoop_not_mem (ps : List Int) (q : Nat) (ss : List String)
    (extra b : Nat) (m : String → Finset Int) (t : String) (ht : t ∉ ss) :
    assignLoop ps q ss extra b m t = m t := by
  induction ss generalizing extra b m with
  | nil => rfl
  | cons s rest ih =>
    have hts : t ≠ s := by
      intro h; exact ht (by rw [h]; exact List.mem_cons_self _ _)
    rw [assignLoop_cons, ih _ _ _ (fun h => ht (List.mem_cons_of_mem _ h)),
      addPartitions_apply, if_neg hts]

lemma assignLoop_get (ps : List Int) (q : Nat) (ss : List String)
    (extra b : Nat) (m : String → Finset Int) (hnd : ss.Nodup)
    (i : Nat) (hi : i < ss.length) :
    assignLoop ps q ss extra b m (ss.get ⟨i, hi⟩) =
      m (ss.get ⟨i, hi⟩) ∪
        ((ps.drop (b + i * q + min i extra)).take
          (q + if i < extra then 1 else 0)).toFinset := by
  induction ss generalizing extra b m i with
  | nil => exact absurd hi (by simp)
  | cons s rest ih =>
    rcases List.nodup_cons.mp hnd with ⟨hs, hrest⟩
    cases i with
    | zero =>
      have hget : (s :: rest).get ⟨0, hi⟩ = s := rfl
      rw [hget, assignLoop_cons, assignLoop_not_mem _ _ _ _ _ _ _ hs,
        addPartitions_apply, if_pos rfl]
      have h2 : (if extra ≠ 0 then 1 else 0) = (if 0 < extra then 1 else 0) := by
        by_cases h : extra = 0
        · simp [h]
        · simp [h, Nat.pos_of_ne_zero h]
      have h3 : b + 0 * q + min 0 extra = b := by simp
      rw [h2, h3]
    | succ j =>
      have hj : j < rest.length := by
        simp only [List.length_cons] at hi; omega
      have hget : (s :: rest).get ⟨j + 1, hi⟩ = rest.get ⟨j, hj⟩ := rfl
      have hne : rest.get ⟨j, hj⟩ ≠ s := by
        intro h; exact hs (by rw [← h]; exact List.get_mem _ _ _)
      rw [hget, assignLoop_cons, ih _ _ _ hrest j hj, addPartitions_apply,
        if_neg hne]
      have hm : (j + 1) * q = j * q + q := by ring
      have harith :
          b + q + (if extra ≠ 0 then 1 else 0) + j * q
              + min j (if extra ≠ 0 then extra - 1 else extra)
            = b + (j + 1) * q + min (j + 1) extra := by
        rw [hm]
        by_cases h : extra = 0
        · simp [h]; omega
        · simp only [h, ne_eq, not_false_eq_true, if_true]
          rcases Nat.le_total j (extra - 1) with hle | hle
          · rw [Nat.min_eq_left hle,
              Nat.min_eq_left (by omega : j + 1 ≤ extra)]
            omega
          · rw [Nat.min_eq_right hle,
              Nat.min_eq_right (by omega : extra ≤ j + 1)]
            omega
      have hcond :
          (if j < (if extra ≠ 0 then extra - 1 else extra) then 1 else 0)
            = (if j + 1 < extra then 1 else 0) := by
        by_cases h : extra = 0
        · simp [h]
        · have hiff : (j < extra - 1) ↔ (j + 1 < extra) := by omega
          simp [h, hiff]
      rw [harith, hcond]

lemma mem_assignLoop (ps : List Int) (q : Nat) (ss : List String)
    (extra b : Nat) (m : String → Finset Int) (t : String) (x : Int)
    (hx : x ∈ assignLoop ps q ss extra b m t) :
    x ∈ m t ∨ x ∈ ps.drop b := by
  induction ss generalizing extra b m with
  | nil => exact Or.inl hx
  | cons s rest ih =>
    rw [assignLoop_cons] at hx
    rcases ih _ _ _ hx with h | h
    · rw [addPartitions_apply] at h
      by_cases hts : t = s
      · rw [if_pos hts] at h
        rcases Finset.mem_union.mp h with h' | h'
        · exact Or.inl (hts ▸ h')
        · exact Or.inr (List.take_subset _ _ (List.mem_toFinset.mp h'))
      · rw [if_neg hts] at h
        exact Or.inl h
    · refine Or.inr ?_
      have hd : ps.drop (b + q + (if extra ≠ 0 then 1 else 0))
          = (ps.drop b).drop (q + (if extra ≠ 0 then 1 else 0)) := by
        rw [List.drop_drop, Nat.add_assoc]
      rw [hd] at h
      exact List.drop_subset _ _ h

lemma assignLoop_foldr_union (ps : List Int) (q : Nat) (ss : List String)
    (extra b : Nat) (m : String → Finset Int) (hnd : ss.Nodup)
    (hm : ∀ t ∈ ss, m t = ∅) (hex : extra ≤ ss.length) :
    ss.foldr (fun s acc => assignLoop ps q ss extra b m s ∪ acc) ∅ =
      ((ps.drop b).take (ss.length * q + extra)).toFinset := by
  induction ss generalizing extra b m with
  | nil =>
    have : extra = 0 := Nat.le_zero.mp hex
    simp [this]
  | cons s rest ih =>
    rcases List.nodup_cons.mp hnd with ⟨hs, hrest⟩
    rw [assignLoop_cons, List.foldr_cons,
      assignLoop_not_mem _ _ _ _ _ _ _ hs, addPartitions_apply, if_pos rfl,
      hm s (List.mem_cons_self _ _), Finset.empty_union]
    have hm' : ∀ t ∈ rest, addPartitions m s
        ((ps.drop b).take (q + (if extra ≠ 0 then 1 else 0))) t = ∅ := by
      intro t htr
      have hts : t ≠ s := by
        intro h; exact hs (by rw [← h]; exact htr)
      rw [addPartitions_apply, if_neg hts, hm t (List.mem_cons_of_mem _ htr)]
    have hex' : (if extra ≠ 0 then extra - 1 else extra) ≤ rest.length := by
      simp only [List.length_cons] at hex
      by_cases h : extra = 0
      · simp [h]
      · rw [if_pos h]; omega
    rw [ih _ _ _ hrest hm' hex']
    have hsplit : (s :: rest).length * q + extra
        = (q + (if extra ≠ 0 then 1 else 0))
          + (rest.length * q + (if extra ≠ 0 then extra - 1 else extra)) := by
      have hmul : (rest.length + 1) * q = rest.length * q + q := by ring
      simp only [List.length_cons]
      by_cases h : extra = 0 <;> simp [h, hmul] <;> omega
    have hgoal : ((ps.drop b).take ((s :: rest).length * q + extra)).toFinset
        = ((ps.drop b).take (q + (if extra ≠ 0 then 1 else 0))).toFinset ∪
          ((ps.drop (b + q + (if extra ≠ 0 then 1 else 0))).take
            (rest.length * q
              + (if extra ≠ 0 then extra - 1 else extra))).toFinset := by
      rw [hsplit, List.take_add, List.toFinset_append, List.drop_drop,
        ← Nat.add_assoc]
    rw [hgoal]

lemma assignLoop_disjoint (ps : List Int) (q : Nat) (ss : List String)
    (extra b : Nat) (m : String → Finset Int) (hnd : ss.Nodup)
    (hm : ∀ t ∈ ss, m t = ∅) (hps : (ps.drop b).Nodup)
    (s t : String) (hsm : s ∈ ss) (htm : t ∈ ss) (hst : s ≠ t) :
    Disjoint (assignLoop ps q ss extra b m s)
      (assignLoop ps q ss extra b m t) := by
  induction ss generalizing extra b m with
  | nil => cases hsm
  | cons s₀ rest ih =>
    rcases List.nodup_cons.mp hnd with ⟨h0, hrest⟩
    rw [assignLoop_cons]
    set k := q + (if extra ≠ 0 then 1 else 0) with hk
    set extra' := if extra ≠ 0 then extra - 1 else extra with hextra'
    set m' := addPartitions m s₀ ((ps.drop b).take k) with hmdef
    have hm' : ∀ u ∈ rest, m' u = ∅ := by
      intro u hur
      have hus : u ≠ s₀ := by
        intro h; exact h0 (by rw [← h]; exact hur)
      rw [hmdef, addPartitions_apply, if_neg hus,
        hm u (List.mem_cons_of_mem _ hur)]
    have hdropE : ps.drop (b + q + (if extra ≠ 0 then 1 else 0))
        = (ps.drop b).drop k := by
      rw [List.drop_drop, Nat.add_assoc]
    -- value at the head subscriber
    have hhead : assignLoop ps q rest extra' (b + q + (if extra ≠ 0 then 1 else 0)) m' s₀
        = ((ps.drop b).take k).toFinset := by
      rw [assignLoop_not_mem _ _ _ _ _ _ _ h0, hmdef, addPartitions_apply,
        if_pos rfl, hm s₀ (List.mem_cons_self _ _), Finset.empty_union]
    -- any later subscriber draws from the remaining suffix
    have htail : ∀ u ∈ rest, ∀ x ∈ assignLoop ps q rest extra'
        (b + q + (if extra ≠ 0 then 1 else 0)) m' u, x ∈ (ps.drop b).drop k := by
      intro u hur x hxu
      rcases mem_assignLoop _ _ _ _ _ _ _ _ hxu with h | h
      · rw [hm' u hur] at h
        cases h
      · rw [hdropE] at h
        exact h
    have hdisjTD : ∀ x ∈ (ps.drop b).take k, x ∉ (ps.drop b).drop k := by
      intro x hxk
      exact fun hxd => (List.disjoint_take_drop hps (le_refl k)) hxk hxd
    rcases List.mem_cons.mp hsm with hseq | hsr
    · rcases List.mem_cons.mp htm with hteq | htr
      · exact absurd (hseq.trans hteq.symm) hst
      · subst hseq
        rw [hhead]
        rw [Finset.disjoint_left]
        intro x hxs hxt
        exact hdisjTD x (List.mem_toFinset.mp hxs) (htail t htr x hxt)
    · rcases List.mem_cons.mp htm with hteq | htr
      · subst hteq
        rw [hhead]
        rw [Finset.disjoint_right]
        intro x hxs hxt
        exact hdisjTD x (List.mem_toFinset.mp hxs) (htail s hsr x hxt)
      · have hpse : (ps.drop (b + q + (if extra ≠ 0 then 1 else 0))).Nodup := by
          rw [hdropE]
          exact List.Nodup.sublist (List.drop_sublist _ _) hps
        exact ih _ _ _ hrest hm' hpse hsr htr

lemma assignFull_nonempty (partitions : List Int) (subscribers : List String)
    (hp : partitions ≠ []) (hs : subscribers ≠ []) :
    assignPartitionsToSubscribers partitions subscribers =
      assignLoop (sortPartitions partitions)
        (partitions.length / subscribers.length)
        (sortSubscribers subscribers)
        (partitions.length
          - subscribers.length * (partitions.length / subscribers.length))
        0 (fun _ => ∅) := by
  have hc : ¬(partitions.length = 0 ∨ subscribers.length = 0) := by
    push_neg
    exact ⟨fun h => hp (List.length_eq_zero.mp h),
      fun h => hs (List.length_eq_zero.mp h)⟩
  simp only [assignPartitionsToSubscribers, assignPartitionsToSubscribersFull,
    if_neg hc]

/-- C1 (amended: both argument lists assumed free of duplicates, as they are
at the call site in `resolvePartitions`, where partitions come from the
broker's partition list and subscribers from map keys):
`assignPartitionsToSubscribers` follows the reference algorithm.  If either
list is empty the result is empty.  Otherwise, with partitions sorted
ascending and subscribers sorted lexicographically, the i-th subscriber in
sorted order receives the block of `q + (1 if i < r else 0)` consecutive
sorted partitions starting at index `i*q + min i r`, where
`q = len(partitions) div len(subscribers)` and
`r = len(partitions) mod len(subscribers)`; consequently the assignment is
deterministic, subscribers outside the input list receive nothing, the
assigned sets are pairwise disjoint and their union is exactly the input
partition set, the i-th sorted subscriber receives exactly
`q + (1 if i < r else 0)` partitions (the first `r` get one extra), and any
two assigned set sizes differ by at most 1. -/
theorem assignPartitionsToSubscribers_range_assignment
    (partitions : List Int) (subscribers : List String)
    (hpn : partitions.Nodup) (hsn : subscribers.Nodup) :
    ((partitions = [] ∨ subscribers = []) →
      ∀ t, assignPartitionsToSubscribers partitions subscribers t = ∅) ∧
    (partitions ≠ [] → subscribers ≠ [] →
      (∀ i (hi : i < (sortSubscribers subscribers).length),
        assignPartitionsToSubscribers partitions subscribers
            ((sortSubscribers subscribers).get ⟨i, hi⟩) =
          (((sortPartitions partitions).drop
              (i * (partitions.length / subscribers.length)
                + min i (partitions.length % subscribers.length))).take
            ((partitions.length / subscribers.length)
              + if i < partitions.length % subscribers.length then 1
                else 0)).toFinset) ∧
      (∀ t, t ∉ subscribers →
        assignPartitionsToSubscribers partitions subscribers t = ∅) ∧
      (∀ s t, s ∈ subscribers → t ∈ subscribers → s ≠ t →
        Disjoint (assignPartitionsToSubscribers partitions subscribers s)
          (assignPartitionsToSubscribers partitions subscribers t)) ∧
      ((sortSubscribers subscribers).foldr
          (fun s acc =>
            assignPartitionsToSubscribers partitions subscribers s ∪ acc) ∅
        = partitions.toFinset) ∧
      (∀ i (hi : i < (sortSubscribers subscribers).length),
        (assignPartitionsToSubscribers partitions subscribers
            ((sortSubscribers subscribers).get ⟨i, hi⟩)).card =
          (partitions.length / subscribers.length)
            + if i < partitions.length % subscribers.length then 1 else 0) ∧
      (∀ s t, s ∈ subscribers → t ∈ subscribers →
        (assignPartitionsToSubscribers partitions subscribers s).card ≤
          (assignPartitionsToSubscribers partitions subscribers t).card
            + 1)) := by
  constructor
  · intro h t
    rcases h with h | h <;>
      simp [assignPartitionsToSubscribers, assignPartitionsToSubscribersFull,
        h]
  · intro hp hs
    have hfun := assignFull_nonempty partitions subscribers hp hs
    have hperm_p : (sortPartitions partitions).Perm partitions :=
      List.perm_insertionSort _ _
    have hperm_s : (sortSubscribers subscribers).Perm subscribers :=
      List.perm_insertionSort _ _
    have hlen_s : (sortSubscribers subscribers).length = subscribers.length :=
      hperm_s.length_eq
    have hlen_p : (sortPartitions partitions).length = partitions.length :=
      hperm_p.length_eq
    have hnodup_p : (sortPartitions partitions).Nodup := hperm_p.symm.nodup hpn
    have hnodup_s : (sortSubscribers subscribers).Nodup :=
      hperm_s.symm.nodup hsn
    have hextra : partitions.length
        - subscribers.length * (partitions.length / subscribers.length)
        = partitions.length % subscribers.length := by
      have := Nat.div_add_mod partitions.length subscribers.length
      omega
    have hscpos : 0 < subscribers.length := List.length_pos.mpr hs
    have hrlt : partitions.length % subscribers.length < subscribers.length :=
      Nat.mod_lt _ hscpos
    have htot : subscribers.length * (partitions.length / subscribers.length)
        + partitions.length % subscribers.length = partitions.length :=
      Nat.div_add_mod _ _
    have ha : ∀ i (hi : i < (sortSubscribers subscribers).length),
        assignPartitionsToSubscribers partitions subscribers
            ((sortSubscribers subscribers).get ⟨i, hi⟩) =
          (((sortPartitions partitions).drop
              (i * (partitions.length / subscribers.length)
                + min i (partitions.length % subscribers.length))).take
            ((partitions.length / subscribers.length)
              + if i < partitions.length % subscribers.length then 1
                else 0)).toFinset := by
      intro i hi
      rw [hfun, assignLoop_get _ _ _ _ _ _ hnodup_s i hi, hextra]
      simp
    have he : ∀ i (hi : i < (sortSubscribers subscribers).length),
        (assignPartitionsToSubscribers partitions subscribers
            ((sortSubscribers subscribers).get ⟨i, hi⟩)).card =
          (partitions.length / subscribers.length)
            + if i < partitions.length % subscribers.length then 1 else 0 := by
      intro i hi
      rw [ha i hi]
      have hsub : ((((sortPartitions partitions)).drop
          (i * (partitions.length / subscribers.length)
            + min i (partitions.length % subscribers.length))).take
            ((partitions.length / subscribers.length)
              + if i < partitions.length % subscribers.length then 1
                else 0)).Sublist (sortPartitions partitions) :=
        (List.take_sublist _ _).trans (List.drop_sublist _ _)
      rw [List.toFinset_card_of_nodup (List.Nodup.sublist hsub hnodup_p),
        List.length_take, List.length_drop, hlen_p]
      have hile : i < subscribers.length := by rw [hlen_s] at hi; exact hi
      have hmul : (i + 1) * (partitions.length / subscribers.length)
          = i * (partitions.length / subscribers.length)
            + (partitions.length / subscribers.length) := by ring
      have hiq : (i + 1) * (partitions.length / subscribers.length)
          ≤ subscribers.length * (partitions.length / subscribers.length) :=
        Nat.mul_le_mul_right _ (by omega)
      have hminr : min i (partitions.length % subscribers.length)
          + (if i < partitions.length % subscribers.length then 1 else 0)
          ≤ partitions.length % subscribers.length := by
        by_cases hir : i < partitions.length % subscribers.length
        · rw [Nat.min_eq_left hir.le, if_pos hir]
          omega
        · rw [Nat.min_eq_right (Nat.le_of_not_lt hir), if_neg hir]
          omega
      rw [Nat.min_eq_left (by omega)]
    refine ⟨ha, ?_, ?_, ?_, he, ?_⟩
    · intro t ht
      rw [hfun]
      exact assignLoop_not_mem _ _ _ _ _ _ _
        (fun hmem => ht (hperm_s.subset hmem))
    · intro s t hsmem htmem hst
      rw [hfun]
      refine assignLoop_disjoint _ _ _ _ _ _ hnodup_s (fun _ _ => rfl) ?_ s t
        (hperm_s.mem_iff.mpr hsmem) (hperm_s.mem_iff.mpr htmem) hst
      rw [List.drop_zero]
      exact hnodup_p
    · have hex : partitions.length
          - subscribers.length * (partitions.length / subscribers.length)
          ≤ (sortSubscribers subscribers).length := by
        rw [hextra, hlen_s]
        exact hrlt.le
      have hfold := assignLoop_foldr_union (sortPartitions partitions)
        (partitions.length / subscribers.length) (sortSubscribers subscribers)
        (partitions.length
          - subscribers.length * (partitions.length / subscribers.length))
        0 (fun _ => ∅) hnodup_s (fun _ _ => rfl) hex
      rw [hfun, hfold, List.drop_zero, hlen_s, hextra, htot, ← hlen_p,
        List.take_length]
      exact List.toFinset_eq_of_perm _ _ hperm_p
    · intro s t hsmem htmem
      obtain ⟨⟨i, hi⟩, hgi⟩ := List.mem_iff_get.mp (hperm_s.mem_iff.mpr hsmem)
      obtain ⟨⟨j, hj⟩, hgj⟩ := List.mem_iff_get.mp (hperm_s.mem_iff.mpr htmem)
      have hcs := he i hi
      rw [hgi] at hcs
      have hct := he j hj
      rw [hgj] at hct
      rw [hcs, hct]
      by_cases h1 : i < partitions.length % subscribers.length <;>
        by_cases h2 : j < partitions.length % subscribers.length <;>
          simp [h1, h2] <;> omega

/-- C1, counterexample to the claim as stated over arbitrary inputs: with a
duplicated partition id in the input, the assigned sets are not balanced
(sizes 1 and 3 for two subscribers) and do not partition the input set. -/
theorem assignPartitionsToSubscribers_duplicates_counterexample :
    "A" ∈ (["A", "B"] : List String) ∧ "B" ∈ (["A", "B"] : List String) ∧
    ((assignPartitionsToSubscribers [1, 1, 1, 1, 2, 3] ["A", "B"]) "A").card
        + 1 <
      ((assignPartitionsToSubscribers [1, 1, 1, 1, 2, 3] ["A", "B"])
          "B").card := by
  refine ⟨by decide, by decide, by decide⟩

/-- C1 witness: the amended theorem applied to the spec's own example,
partitions `{0,1,2}` and subscribers `{A,B}`: `A` receives `{0,1}` and `B`
receives `{2}`, and distinct subscribers receive disjoint sets. -/
theorem assignPartitionsToSubscribers_range_assignment_example :
    assignPartitionsToSubscribers [0, 1, 2] ["A", "B"] "A"
        = ({0, 1} : Finset Int) ∧
    assignPartitionsToSubscribers [0, 1, 2] ["A", "B"] "B"
        = ({2} : Finset Int) ∧
    (∀ s t, s ∈ (["A", "B"] : List String) → t ∈ (["A", "B"] : List String) →
      s ≠ t →
      Disjoint (assignPartitionsToSubscribers [0, 1, 2] ["A", "B"] s)
        (assignPartitionsToSubscribers [0, 1, 2] ["A", "B"] t)) :=
  ⟨by decide, by decide,
    ((assignPartitionsToSubscribers_range_assignment [0, 1, 2] ["A", "B"]
        (by decide) (by decide)).2 (by decide) (by decide)).2.2.1⟩

/-- C10: when both arguments are non-empty, `assignPartitionsToSubscribers`
sorts the caller's partitions slice ascending in place and the subscribers
slice lexicographically in place; the first two components of the embedded
result are the final contents of the two argument slices.  The function
reads and writes nothing else that the caller can observe (in this
embedding it is a pure function of exactly its two arguments). -/
theorem assignPartitionsToSubscribers_sorts_in_place
    (partitions : List Int) (subscribers : List String)
    (hp : partitions ≠ []) (hs : subscribers ≠ []) :
    ((assignPartitionsToSubscribersFull partitions subscribers).1.Perm
        partitions ∧
      (assignPartitionsToSubscribersFull partitions
          subscribers).1.Sorted (· ≤ ·)) ∧
    ((assignPartitionsToSubscribersFull partitions subscribers).2.1.Perm
        subscribers ∧
      (assignPartitionsToSubscribersFull partitions
          subscribers).2.1.Sorted GoStrLe) := by
  have hc : ¬(partitions.length = 0 ∨ subscribers.length = 0) := by
    push_neg
    exact ⟨fun h => hp (List.length_eq_zero.mp h),
      fun h => hs (List.length_eq_zero.mp h)⟩
  simp only [assignPartitionsToSubscribersFull, if_neg hc, sortPartitions,
    sortSubscribers]
  exact ⟨⟨List.perm_insertionSort _ _, List.sorted_insertionSort _ _⟩,
    ⟨List.perm_insertionSort _ _, List.sorted_insertionSort _ _⟩⟩

/-- C10 witness: the in-place sorting theorem evaluated on unsorted
concrete slices. -/
theorem assignPartitionsToSubscribers_sorts_in_place_witness :
    ((assignPartitionsToSubscribersFull [2, 1] ["B", "A"]).1.Perm [2, 1] ∧
      (assignPartitionsToSubscribersFull [2, 1]
          ["B", "A"]).1.Sorted (· ≤ ·)) ∧
    ((assignPartitionsToSubscribersFull [2, 1] ["B", "A"]).2.1.Perm
        ["B", "A"] ∧
      (assignPartitionsToSubscribersFull [2, 1]
          ["B", "A"]).2.1.Sorted GoStrLe) :=
  assignPartitionsToSubscribers_sorts_in_place [2, 1] ["B", "A"]
    (by decide) (by decide)

/-! ## Topic consumer (`topicConsumer.run`, consumer.go:521-549)

The run loop dequeues requests from `requestsCh` until the channel is
closed by `stop` (consumer.go:516-519); the list argument below is the
sequence of requests it dequeues, so requests already dequeued when the
queue closes are still processed.  Time is modelled as integers
(nanoseconds); for each dequeued request the environment determines the
dequeue time `now` and the outcome of the select at consumer.go:542-547:
`some m` when a message is received from `messagesCh` before the `ttl`
timer fires, `none` when the timer fires first. -/

/-- `consumeRequest` (consumer.go:115-120): only the timestamp matters for
the timeout logic; `id` identifies its private reply channel. -/
structure ConsumeRequest where
  id : Nat
  timestamp : Int
  deriving DecidableEq

/-- `consumeResult` (consumer.go:122-125), plus the buffer-overflow error
that the dispatcher can send for a rejected request. -/
inductive ConsumeResult
  | msg (m : Int)
  | timeoutErr
  | bufferOverflowErr
  deriving DecidableEq

/-- One iteration of the request loop (consumer.go:530-548): compute the
request's remaining `ttl`; reply immediately with the timeout error when it
is non-positive (without touching `messagesCh`), otherwise reply with the
select outcome.  Returns the reply sent on the request's reply channel and
whether a message was consumed from `messagesCh`. -/
def handleConsumeRequest (longPollingTimeout now : Int)
    (consumeReq : ConsumeRequest) (arrival : Option Int) :
    ConsumeResult × Bool :=
  let requestAge := now - consumeReq.timestamp
  let ttl := longPollingTimeout - requestAge
  if ttl ≤ 0 then (.timeoutErr, false)
  else
    match arrival with
    | some m => (.msg m, true)
    | none => (.timeoutErr, false)

/-- The whole request loop: one reply is emitted per dequeued request, in
order; the output pairs each request id with the reply sent to it. -/
def topicConsumerRun (longPollingTimeout : Int) :
    List (ConsumeRequest × Int × Option Int) → List (Nat × ConsumeResult)
  | [] => []
  | (consumeReq, now, arrival) :: rest =>
    (consumeReq.id,
        (handleConsumeRequest longPollingTimeout now consumeReq arrival).1)
      :: topicConsumerRun longPollingTimeout rest

/-- Modelled from the spec: the dispatcher (its source file is not part of
this package's file) forwards each request onto the child tier's bounded
queue with a non-blocking offer and, when the queue is full, replies
`BUFFER_OVERFLOW` itself (spec section 4.E): a rejected request receives
exactly one overflow reply and is never enqueued; an accepted request
receives no reply from the dispatcher and is enqueued for the topic
consumer. -/
def dispatcherOffer (queueFull : Bool) : Bool × List ConsumeResult :=
  if queueFull then (false, [.bufferOverflowErr]) else (true, [])

/-- `T.Consume` (consumer.go:108-113): waits for the first value on its
size-1 reply channel and returns it. -/
def Consume (replies : List ConsumeResult) : Option ConsumeResult :=
  replies.head?

/-- C4: for every dequeued request the topic consumer computes
`ttl = LongPollingTimeout - (now - request.timestamp)`; if `ttl ≤ 0` it
replies with the request-timeout error immediately without consuming a
message from `messagesCh`; otherwise it replies either with a message
received from `messagesCh` or, when the `ttl` timer fires first, with the
request-timeout error. -/
theorem topicConsumer_ttl_guard (longPollingTimeout now : Int)
    (consumeReq : ConsumeRequest) (arrival : Option Int) :
    (longPollingTimeout - (now - consumeReq.timestamp) ≤ 0 →
      handleConsumeRequest longPollingTimeout now consumeReq arrival
        = (.timeoutErr, false)) ∧
    (0 < longPollingTimeout - (now - consumeReq.timestamp) →
      (∃ m, arrival = some m ∧
        handleConsumeRequest longPollingTimeout now consumeReq arrival
          = (.msg m, true)) ∨
      (arrival = none ∧
        handleConsumeRequest longPollingTimeout now consumeReq arrival
          = (.timeoutErr, false))) := by
  constructor
  · intro h
    simp [handleConsumeRequest, h]
  · intro h
    have hpos : ¬(longPollingTimeout - (now - consumeReq.timestamp) ≤ 0) := by
      omega
    cases arrival with
    | some m =>
      left
      exact ⟨m, rfl, by simp [handleConsumeRequest, hpos]⟩
    | none =>
      right
      exact ⟨rfl, by simp [handleConsumeRequest, hpos]⟩

/-- C4 witness: a request that aged past its TTL in the queue is rejected
immediately, and a fresh request is answered with the fetched message. -/
theorem topicConsumer_ttl_guard_witness :
    handleConsumeRequest 100 250 ⟨0, 50⟩ (some 7) = (.timeoutErr, false) ∧
    handleConsumeRequest 100 60 ⟨1, 50⟩ (some 7) = (.msg 7, true) := by
  refine ⟨(topicConsumer_ttl_guard 100 250 ⟨0, 50⟩ (some 7)).1 (by decide), ?_⟩
  rcases (topicConsumer_ttl_guard 100 60 ⟨1, 50⟩ (some 7)).2 (by decide) with
    ⟨m, hm, he⟩ | ⟨hnone, _⟩
  · cases hm
    exact he
  · cases hnone

/-- C7: every request receives exactly one reply.  The topic consumer run
loop emits exactly one reply per dequeued request, in dequeue order
(including requests already dequeued when `stop` closes the queue: the
loop drains them all), and each such reply is either a message or the
request-timeout error; the dispatcher (spec-modelled) replies exactly once
with `BUFFER_OVERFLOW` to a request it rejects and never replies to one it
enqueues; and `Consume` returns the first and only value received on the
reply channel. -/
theorem consume_exactly_one_reply (longPollingTimeout : Int)
    (entries : List (ConsumeRequest × Int × Option Int)) :
    ((topicConsumerRun longPollingTimeout entries).map Prod.fst
      = entries.map (fun e => e.1.id)) ∧
    ((topicConsumerRun longPollingTimeout entries).length = entries.length) ∧
    (∀ e ∈ topicConsumerRun longPollingTimeout entries,
      (∃ m, e.2 = ConsumeResult.msg m) ∨ e.2 = ConsumeResult.timeoutErr) ∧
    (∀ queueFull : Bool,
      (dispatcherOffer queueFull).2.length = (if queueFull then 1 else 0) ∧
      ((dispatcherOffer queueFull).1 = true ↔ queueFull = false)) ∧
    (∀ r : ConsumeResult, Consume [r] = some r) := by
  refine ⟨?_, ?_, ?_, ?_, fun r => rfl⟩
  · induction entries with
    | nil => rfl
    | cons e rest ih =>
      obtain ⟨consumeReq, now, arrival⟩ := e
      simpa [topicConsumerRun] using ih
  · induction entries with
    | nil => rfl
    | cons e rest ih =>
      obtain ⟨consumeReq, now, arrival⟩ := e
      simpa [topicConsumerRun] using ih
  · induction entries with
    | nil => intro e he; cases he
    | cons entry rest ih =>
      obtain ⟨consumeReq, now, arrival⟩ := entry
      intro e he
      rcases List.mem_cons.mp he with h | h
      · subst h
        simp only [handleConsumeRequest]
        by_cases httl : longPollingTimeout - (now - consumeReq.timestamp) ≤ 0
        · right; simp [httl]
        · cases arrival with
          | some m => left; exact ⟨m, by simp [httl]⟩
          | none => right; simp [httl]
      · exact ih e h
  · intro queueFull
    cases queueFull <;> simp [dispatcherOffer]

/-- C7 witness: a two-request run produces exactly the two replies, one per
request, and a full queue produces exactly one overflow reply. -/
theorem consume_exactly_one_reply_witness :
    (topicConsumerRun 100 [(⟨0, 50⟩, 60, some 7), (⟨1, 50⟩, 250, none)]).map
        Prod.fst = [0, 1] ∧
    (∀ e ∈ topicConsumerRun 100 [(⟨0, 50⟩, 60, some 7), (⟨1, 50⟩, 250, none)],
      (∃ m, e.2 = ConsumeResult.msg m) ∨ e.2 = ConsumeResult.timeoutErr) ∧
    (dispatcherOffer true).2.length = 1 := by
  refine ⟨(consume_exactly_one_reply 100 _).1, (consume_exactly_one_reply 100 _).2.2.1, ?_⟩
  exact ((consume_exactly_one_reply 100 []).2.2.2.1 true).1

/-! ## Exclusive consumer (`exclusiveConsumer.run`, consumer.go:601-691)

The run function is a per-partition state machine driven by channel events.
The main loop (consumer.go:636-674) alternates between waiting for a
fetched message (FETCHING, the inner select at 640-655) and offering that
message to the upstream consumer until it is acknowledged (OFFERING, the
select at 659-673).  Events on channels that are not selected in a given
phase cannot be consumed there, which the step function reflects by
returning `none`. -/

/-- Events consumed by the main loop selects. -/
inductive EcEvent
  | fetched (offset : Int)     -- msg = <-pc.Messages() (only its offset matters)
  | offered                    -- ec.messagesCh <- msg succeeded, no ack yet
  | ack                        -- <-ec.acksCh
  | committed (offset : Int)   -- committedOffset := <-pom.CommittedOffsets()
  | stop                       -- <-ec.stoppingCh fired
  deriving DecidableEq

inductive EcPhase
  | fetching
  | offering (msgOffset : Int)
  | done
  deriving DecidableEq

structure EcState where
  phase : EcPhase
  lastSubmittedOffset : Int
  lastCommittedOffset : Int
  deriving DecidableEq

/-- One select iteration of the main loop.  The result carries the offset
passed to `pom.SubmitOffset` during that step, if any (consumer.go:664-665
is the only submission in the loop). -/
def ecStep (s : EcState) (e : EcEvent) : Option (EcState × Option Int) :=
  match s.phase, e with
  | .fetching, .fetched off => some ({ s with phase := .offering off }, none)
  | .fetching, .committed c =>
      some ({ s with lastCommittedOffset := c }, none)
  | .fetching, .stop => some ({ s with phase := .done }, none)
  | .fetching, _ => none
  | .offering _, .offered => some (s, none)
  | .offering msgOffset, .ack =>
      some ({ s with phase := .fetching,
                     lastSubmittedOffset := msgOffset + 1 },
        some (msgOffset + 1))
  | .offering _, .committed c =>
      some ({ s with lastCommittedOffset := c }, none)
  | .offering _, .stop => some ({ s with phase := .done }, none)
  | .offering _, .fetched _ => none
  | .done, _ => none

/-- Run the main loop over an event trace, collecting every offset
submitted along the way. -/
def ecRun (s : EcState) : List EcEvent → Option (EcState × List Int)
  | [] => some (s, [])
  | e :: rest =>
    match ecStep s e with
    | none => none
    | some (s', sub) =>
      match ecRun s' rest with
      | none => none
      | some (s'', subs) => some (s'', sub.toList ++ subs)

lemma ecStep_sub_length (s : EcState) (e : EcEvent) (s' : EcState)
    (sub : Option Int) (h : ecStep s e = some (s', sub)) :
    sub.toList.length = if e = EcEvent.ack then 1 else 0 := by
  obtain ⟨ph, ls, lc⟩ := s
  cases ph <;> cases e <;> simp only [ecStep, Option.some.injEq,
    Prod.mk.injEq] at h <;> try obtain ⟨h1, h2⟩ := h
  all_goals subst h2
  all_goals simp

/-- C3: in the offering state, `SubmitOffset` is invoked exactly upon
receiving an ack: the ack transition submits `msg.Offset + 1`, records it
in `lastSubmittedOffset` and returns the consumer to the fetching state;
no other offering transition and no fetching transition submits anything;
consequently a run of the loop submits exactly one offset per consumed ack,
so the offset of message N+1 (which can only be fetched after the machine
has returned to fetching, i.e. after N was acknowledged) is never submitted
before message N has been acknowledged. -/
theorem exclusiveConsumer_submit_on_ack :
    (∀ msgOffset ls lc,
      ecStep ⟨.offering msgOffset, ls, lc⟩ .ack
        = some (⟨.fetching, msgOffset + 1, lc⟩, some (msgOffset + 1))) ∧
    (∀ msgOffset ls lc e s' sub,
      ecStep ⟨.offering msgOffset, ls, lc⟩ e = some (s', sub) →
      sub ≠ none →
      e = .ack ∧ sub = some (msgOffset + 1) ∧ s'.phase = .fetching ∧
        s'.lastSubmittedOffset = msgOffset + 1) ∧
    (∀ ls lc e s' sub,
      ecStep ⟨.fetching, ls, lc⟩ e = some (s', sub) → sub = none) ∧
    (∀ s trace s' subs,
      ecRun s trace = some (s', subs) →
      subs.length = trace.countP (fun e => decide (e = .ack))) := by
  refine ⟨fun _ _ _ => rfl, ?_, ?_, ?_⟩
  · intro msgOffset ls lc e s' sub hstep hsub
    cases e <;> simp [ecStep] at hstep <;> try exact absurd hstep.2.symm hsub
    · exact ⟨rfl, hstep.2.symm, by rw [← hstep.1], by rw [← hstep.1]⟩
  · intro ls lc e s' sub hstep
    cases e <;> simp [ecStep] at hstep <;> try exact hstep.2.symm
  · intro s trace
    induction trace generalizing s with
    | nil =>
      intro s' subs h
      cases h
      rfl
    | cons e rest ih =>
      intro s' subs h
      rcases hs : ecStep s e with _ | ⟨s₁, sub⟩
      · simp only [ecRun, hs] at h
        exact Option.noConfusion h
      · rcases hr : ecRun s₁ rest with _ | ⟨s₂, subs₂⟩
        · simp only [ecRun, hs, hr] at h
          exact Option.noConfusion h
        · simp only [ecRun, hs, hr, Option.some.injEq, Prod.mk.injEq] at h
          obtain ⟨h1, h2⟩ := h
          subst h2
          have hrec := ih s₁ s₂ subs₂ hr
          rw [List.length_append, ecStep_sub_length s e s₁ sub hs, hrec,
            List.countP_cons]
          by_cases he : e = EcEvent.ack <;> simp [he] <;> omega

/-- C3 witness: the ack transition at a concrete offering state, and the
submission count of a concrete successful run (fetch 5, offer, ack, stop):
exactly one submission, equal to the acked offset plus one. -/
theorem exclusiveConsumer_submit_on_ack_witness :
    ecStep ⟨EcPhase.offering 41, 0, 0⟩ EcEvent.ack
      = some (⟨EcPhase.fetching, 42, 0⟩, some 42) ∧
    ecRun ⟨EcPhase.fetching, 0, 0⟩
        [EcEvent.fetched 5, EcEvent.offered, EcEvent.ack, EcEvent.stop]
      = some (⟨EcPhase.done, 6, 0⟩, [6]) ∧
    ([(6 : Int)].length
      = [EcEvent.fetched 5, EcEvent.offered, EcEvent.ack,
          EcEvent.stop].countP (fun e => decide (e = EcEvent.ack))) :=
  ⟨exclusiveConsumer_submit_on_ack.1 41 0 0, by decide,
    exclusiveConsumer_submit_on_ack.2.2.2 ⟨EcPhase.fetching, 0, 0⟩
      [EcEvent.fetched 5, EcEvent.offered, EcEvent.ack, EcEvent.stop]
      ⟨EcPhase.done, 6, 0⟩ [6] (by decide)⟩

/-- The drain loop at consumer.go:684-690: consume committed-offset events
until one equals `lastSubmittedOffset`; the stream ends (channel closes)
after `events`.  Returns the consumed events and whether equality was
observed (when the channel closes without equality the loop also ends and
`run` returns, with the release still running afterwards). -/
def drainCommittedOffsets (lastSubmittedOffset : Int) :
    List Int → List Int × Bool
  | [] => ([], false)
  | c :: rest =>
    if c = lastSubmittedOffset then ([c], true)
    else
      let r := drainCommittedOffsets lastSubmittedOffset rest
      (c :: r.1, r.2)

/-- The shutdown tail of `exclusiveConsumer.run` (consumer.go:675-691):
after `done:`, return immediately when the last committed offset already
equals the last submitted one, otherwise drain `CommittedOffsets`.  Only
when this function returns does the deferred claim release
(consumer.go:603) run. -/
def ecShutdown (lastCommittedOffset lastSubmittedOffset : Int)
    (events : List Int) : List Int × Bool :=
  if lastCommittedOffset = lastSubmittedOffset then ([], true)
  else drainCommittedOffsets lastSubmittedOffset events

lemma drainCommittedOffsets_spec (ls : Int) (events : List Int)
    (hmem : ls ∈ events) :
    drainCommittedOffsets ls events
      = (events.takeWhile (fun c => decide (c ≠ ls)) ++ [ls], true) := by
  induction events with
  | nil => cases hmem
  | cons c rest ih =>
    by_cases hc : c = ls
    · subst hc
      simp [drainCommittedOffsets, List.takeWhile_cons]
    · have hmem' : ls ∈ rest := by
        rcases List.mem_cons.mp hmem with h | h
        · exact absurd h.symm hc
        · exact h
      simp [drainCommittedOffsets, hc, List.takeWhile_cons, ih hmem']

lemma takeWhile_concat_append (ls : Int) (events : List Int)
    (hmem : ls ∈ events) :
    ∃ rest, (events.takeWhile (fun c => decide (c ≠ ls)) ++ [ls]) ++ rest
      = events := by
  induction events with
  | nil => cases hmem
  | cons c cs ih =>
    by_cases hc : c = ls
    · subst hc
      exact ⟨cs, by simp [List.takeWhile_cons]⟩
    · have hmem' : ls ∈ cs := by
        rcases List.mem_cons.mp hmem with h | h
        · exact absurd h.symm hc
        · exact h
      obtain ⟨rest, hres⟩ := ih hmem'
      refine ⟨rest, ?_⟩
      simp [List.takeWhile_cons, hc, List.append_assoc] at hres ⊢
      rw [hres]
/-- C2: on shutdown of an exclusive consumer the partition claim is
released only after the last committed offset equals the last submitted
offset: when they are already equal the run loop exits immediately (no
events consumed); otherwise it drains `CommittedOffsets` events until an
event equal to `lastSubmittedOffset` is observed — the consumed events are
a prefix of the stream whose last element equals `lastSubmittedOffset` and
whose earlier elements all differ from it — and only then does `run`
return, letting the deferred claim release execute.  The hypothesis
`lastSubmittedOffset ∈ events` states that the offset manager eventually
reports the submitted offset before closing the stream. -/
theorem exclusiveConsumer_release_after_commit
    (lastCommittedOffset lastSubmittedOffset : Int) (events : List Int) :
    (lastCommittedOffset = lastSubmittedOffset →
      ecShutdown lastCommittedOffset lastSubmittedOffset events
        = ([], true)) ∧
    (lastCommittedOffset ≠ lastSubmittedOffset →
      lastSubmittedOffset ∈ events →
      (ecShutdown lastCommittedOffset lastSubmittedOffset events).2
          = true ∧
      (ecShutdown lastCommittedOffset lastSubmittedOffset events).1
          = events.takeWhile (fun c => decide (c ≠ lastSubmittedOffset))
              ++ [lastSubmittedOffset] ∧
      (ecShutdown lastCommittedOffset lastSubmittedOffset
            events).1.getLast? = some lastSubmittedOffset ∧
      (∀ c ∈ (ecShutdown lastCommittedOffset lastSubmittedOffset
          events).1.dropLast, c ≠ lastSubmittedOffset) ∧
      ∃ rest, (ecShutdown lastCommittedOffset lastSubmittedOffset
          events).1 ++ rest = events) := by
  constructor
  · intro h
    simp [ecShutdown, h]
  · intro hne hmem
    have hd : ecShutdown lastCommittedOffset lastSubmittedOffset events
        = (events.takeWhile (fun c => decide (c ≠ lastSubmittedOffset))
            ++ [lastSubmittedOffset], true) := by
      rw [ecShutdown, if_neg hne,
        drainCommittedOffsets_spec lastSubmittedOffset events hmem]
    rw [hd]
    refine ⟨rfl, rfl, List.getLast?_concat _, ?_, ?_⟩
    · intro c hcmem
      rw [List.dropLast_concat] at hcmem
      have := List.mem_takeWhile_imp hcmem
      simpa using this
    · exact takeWhile_concat_append _ _ hmem

/-- C2 witness: the drain theorem evaluated at a concrete shutdown where
the last submitted offset 7 is observed as the second committed event. -/
theorem exclusiveConsumer_release_after_commit_witness :
    ecShutdown 5 7 [6, 7, 8] = ([6, 7], true) ∧
    (ecShutdown 5 7 [6, 7, 8]).1.getLast? = some 7 ∧
    (∀ c ∈ (ecShutdown 5 7 [6, 7, 8]).1.dropLast, c ≠ 7) :=
  ⟨by decide,
    ((exclusiveConsumer_release_after_commit 5 7 [6, 7, 8]).2 (by decide)
      (by decide)).2.2.1,
    ((exclusiveConsumer_release_after_commit 5 7 [6, 7, 8]).2 (by decide)
      (by decide)).2.2.2.1⟩

/-! ## Exclusive consumer initialization (consumer.go:601-635)

`run` claims the partition (the deferred call at consumer.go:603 first
invokes `claimPartition`, which blocks until the claim is granted, and
defers the returned release), opens the partition offset manager, then
waits for the initial offset; if the stop signal fires first it returns at
consumer.go:616, so the deferred functions run in LIFO order: `pom.Close`
(consumer.go:609) and then the claim release.  Only when the initial
offset arrives does it open the partition fetch cursor, prime the offset
storage when the initial offset is `OffsetNewest`, and enter the
fetch/offer loop. -/

inductive EcInitEvent
  | initialOffset (offset : Int)   -- initialOffset = <-pom.InitialOffset()
  | stopFirst                      -- <-ec.stoppingCh fired while waiting
  deriving DecidableEq

inductive EcAction
  | claimPartition
  | managePartition
  | submitOffset (offset : Int)
  | consumePartition (offset : Int)
  | enterFetchLoop
  | closePartitionManager
  | releaseClaim
  deriving DecidableEq

def EcAction.isSubmitOffset : EcAction → Bool
  | .submitOffset _ => true
  | _ => false

def EcAction.isConsumePartition : EcAction → Bool
  | .consumePartition _ => true
  | _ => false

/-- The initialization phase of `exclusiveConsumer.run` as the sequence of
externally visible actions it performs, driven by whether
`pom.InitialOffset()` or the stop signal fires first (consumer.go:613-617).
`isNewest` models `initialOffset.Offset == sarama.OffsetNewest` and
`concreteOffset` the concrete offset returned by `ConsumePartition`
(consumer.go:619-633). -/
def ecRunInitActions (w : EcInitEvent) (isNewest : Bool)
    (concreteOffset : Int) : List EcAction :=
  [.claimPartition, .managePartition] ++
  match w with
  | .stopFirst => [.closePartitionManager, .releaseClaim]
  | .initialOffset off =>
    [.consumePartition off]
      ++ (if isNewest then [.submitOffset concreteOffset] else [])
      ++ [.enterFetchLoop]

/-- C9: if the initial offset never arrives and the stop signal fires
while the consumer is waiting for it, `run` exits cleanly without ever
having claimed work: it performs no `SubmitOffset`, opens no partition
fetch cursor, never enters the fetch/offer loop, and the deferred claim
release is the last thing that runs. -/
theorem exclusiveConsumer_stop_before_initial_offset :
    ∀ (isNewest : Bool) (concreteOffset : Int),
      ecRunInitActions .stopFirst isNewest concreteOffset
        = [.claimPartition, .managePartition, .closePartitionManager,
            .releaseClaim] ∧
      (ecRunInitActions .stopFirst isNewest concreteOffset).all
        (fun a => !a.isSubmitOffset && !a.isConsumePartition
          && !(a == EcAction.enterFetchLoop)) = true ∧
      (ecRunInitActions .stopFirst isNewest
          concreteOffset).getLast? = some .releaseClaim := by
  intro isNewest concreteOffset
  refine ⟨rfl, rfl, rfl⟩

/-! ## Group consumer control loop (`managePartitions`, consumer.go:231-294)

The loop is single-threaded and event-driven.  The state below keeps the
flags of consumer.go:241 (`shouldRebalance, canRebalance = false, true`),
the retry timer (`nilOrRetryCh`, armed with `BackOffTimeout` after a
failed rebalance, consumer.go:269), and, for the in-flight accounting, the
number of `rebalance` goroutines currently running plus the number of
results buffered in `rebalanceResultCh` (a channel of capacity 1,
consumer.go:242).  Events whose channel cannot fire in a given state
(a result receive from an empty channel, a retry tick with a nil timer, a
goroutine completion with no goroutine running) are rejected with `none`.
The `topicConsumers` map, `topics` list and publish slot do not interact
with the rebalance flags (their cases `continue` before the spawn check,
consumer.go:246-258) and are not tracked. -/

inductive GcEvent
  | addTopicConsumer                 -- consumer.go:246, then `continue`
  | deleteTopicConsumer              -- consumer.go:251, then `continue`
  | publishTopics                    -- consumer.go:256, then `continue`
  | membershipChange                 -- consumer.go:259
  | rebalanceCompleted (isErr : Bool) -- the goroutine sends its result (consumer.go:304 or 340)
  | rebalanceResult                  -- consumer.go:265: err := <-rebalanceResultCh
  | retryTimerFired                  -- consumer.go:272: <-nilOrRetryCh
  deriving DecidableEq

structure GcState where
  shouldRebalance : Bool
  canRebalance : Bool
  running : Nat            -- rebalance goroutines currently executing
  pending : Nat            -- results buffered in rebalanceResultCh
  pendingErr : Bool        -- whether the buffered result is an error
  retryTimer : Option Int  -- some backOffTimeout iff nilOrRetryCh is armed
  deriving DecidableEq

/-- The spawn check at the bottom of the loop body (consumer.go:276-285):
executed by every case that falls through (does not `continue`). -/
def gcCheckRebalance (s : GcState) : GcState :=
  if s.shouldRebalance ∧ s.canRebalance then
    { s with running := s.running + 1,
             shouldRebalance := false, canRebalance := false }
  else s

/-- One iteration of the `managePartitions` select loop. -/
def gcStep (backOffTimeout : Int) (s : GcState) : GcEvent → Option GcState
  | .addTopicConsumer => some s
  | .deleteTopicConsumer => some s
  | .publishTopics => some s
  | .membershipChange =>
      some (gcCheckRebalance
        { s with retryTimer := none, shouldRebalance := true })
  | .rebalanceCompleted isErr =>
      if s.running = 0 then none
      else if s.pending ≠ 0 then none   -- capacity-1 channel still full
      else some { s with running := s.running - 1, pending := 1,
                         pendingErr := isErr }
  | .rebalanceResult =>
      if s.pending = 0 then none
      else
        let s' := { s with canRebalance := true, pending := s.pending - 1 }
        if s.pendingErr then
          some { s' with retryTimer := some backOffTimeout }  -- `continue`
        else gcCheckRebalance s'
  | .retryTimerFired =>
      match s.retryTimer with
      | none => none
      | some _ =>
          some (gcCheckRebalance
            { s with shouldRebalance := true, retryTimer := none })

/-- The loop state at consumer.go:241-243, before any event. -/
def gcInit : GcState :=
  { shouldRebalance := false, canRebalance := true, running := 0,
    pending := 0, pendingErr := false, retryTimer := none }

def gcRun (backOffTimeout : Int) : GcState → List GcEvent → Option GcState
  | s, [] => some s
  | s, e :: rest =>
    match gcStep backOffTimeout s e with
    | none => none
    | some s' => gcRun backOffTimeout s' rest

/-- The in-flight accounting invariant: exactly one of "a rebalance
goroutine is running", "its result is buffered", "the loop may spawn a
new rebalance" holds. -/
def GcInv (s : GcState) : Prop :=
  s.running + s.pending + (if s.canRebalance then 1 else 0) = 1

lemma gcCheckRebalance_inv (s : GcState) (h : GcInv s) :
    GcInv (gcCheckRebalance s) := by
  obtain ⟨sr, cr, run, p, pe, rt⟩ := s
  by_cases hsr : sr = true <;> by_cases hcr : cr = true <;>
    simp [GcInv, gcCheckRebalance, hsr, hcr] at h ⊢ <;> omega

lemma gcStep_inv (backOffTimeout : Int) (s : GcState) (e : GcEvent)
    (s' : GcState) (hstep : gcStep backOffTimeout s e = some s')
    (h : GcInv s) : GcInv s' := by
  obtain ⟨sr, cr, run, p, pe, rt⟩ := s
  cases e with
  | addTopicConsumer =>
    cases hstep
    exact h
  | deleteTopicConsumer =>
    cases hstep
    exact h
  | publishTopics =>
    cases hstep
    exact h
  | membershipChange =>
    cases hstep
    exact gcCheckRebalance_inv _ h
  | rebalanceCompleted isErr =>
    by_cases h0 : run = 0
    · simp [gcStep, h0] at hstep
    · by_cases h1 : p = 0
      · simp only [gcStep, h0, h1, ne_eq, not_true_eq_false, if_false,
          ite_false, Option.some.injEq, reduceIte] at hstep
        subst hstep
        by_cases hcr : cr = true <;> simp [GcInv, hcr] at h ⊢ <;> omega
      · simp [gcStep, h0, h1] at hstep
  | rebalanceResult =>
    by_cases h0 : p = 0
    · simp [gcStep, h0] at hstep
    · by_cases h1 : pe = true
      · simp only [gcStep, h0, h1, ite_false, ite_true, Option.some.injEq,
          reduceIte] at hstep
        subst hstep
        by_cases hcr : cr = true <;> simp [GcInv, hcr] at h ⊢ <;> omega
      · simp only [gcStep, h0, h1, ite_false, Option.some.injEq,
          reduceIte, Bool.false_eq_true] at hstep
        subst hstep
        refine gcCheckRebalance_inv _ ?_
        by_cases hcr : cr = true <;> simp [GcInv, hcr] at h ⊢ <;> omega
  | retryTimerFired =>
    rcases hrt : rt with _ | t <;> subst hrt
    · simp [gcStep] at hstep
    · simp only [gcStep, Option.some.injEq] at hstep
      subst hstep
      exact gcCheckRebalance_inv _ h

lemma gcRun_inv (backOffTimeout : Int) :
    ∀ (trace : List GcEvent) (s s' : GcState), GcInv s →
      gcRun backOffTimeout s trace = some s' → GcInv s' := by
  intro trace
  induction trace with
  | nil =>
    intro s s' h hrun
    cases hrun
    exact h
  | cons e rest ih =>
    intro s s' h hrun
    rcases hs : gcStep backOffTimeout s e with _ | s₁
    · simp only [gcRun, hs] at hrun
      exact Option.noConfusion hrun
    · simp only [gcRun, hs] at hrun
      exact ih s₁ s' (gcStep_inv backOffTimeout s e s₁ hs h) hrun

/-- C5: at most one rebalance per group is in flight at a time.  The spawn
check fires only when `shouldRebalance` and `canRebalance` are both true
and clears both flags as it increments the number of running rebalances;
no other transition increases that number; `canRebalance` turns from false
to true only when a result is received on `rebalanceResultCh`; and in every
state reachable from the initial loop state, the number of running
rebalance goroutines plus buffered results plus the `canRebalance` token
is exactly one — in particular at most one rebalance is running. -/
theorem groupConsumer_single_rebalance_in_flight (backOffTimeout : Int) :
    (∀ s : GcState,
      (s.shouldRebalance = true ∧ s.canRebalance = true →
        gcCheckRebalance s
          = { s with running := s.running + 1, shouldRebalance := false,
                     canRebalance := false }) ∧
      (¬(s.shouldRebalance = true ∧ s.canRebalance = true) →
        gcCheckRebalance s = s)) ∧
    (∀ s e s', gcStep backOffTimeout s e = some s' →
      s.running < s'.running →
      s'.running = s.running + 1 ∧ s'.shouldRebalance = false ∧
        s'.canRebalance = false) ∧
    (∀ s e s', gcStep backOffTimeout s e = some s' →
      s.canRebalance = false → s'.canRebalance = true →
      e = GcEvent.rebalanceResult) ∧
    (∀ trace s', gcRun backOffTimeout gcInit trace = some s' →
      GcInv s' ∧ s'.running ≤ 1) := by
  refine ⟨?_, ?_, ?_, ?_⟩
  · intro s
    constructor
    · intro ⟨h1, h2⟩
      simp [gcCheckRebalance, h1, h2]
    · intro hc
      simp only [gcCheckRebalance, ite_eq_right_iff]
      intro hcc
      exact absurd ⟨by simp [hcc.1], by simp [hcc.2]⟩ hc
  · intro s e s' hstep hlt
    obtain ⟨sr, cr, run, p, pe, rt⟩ := s
    cases e with
    | addTopicConsumer => cases hstep; omega
    | deleteTopicConsumer => cases hstep; omega
    | publishTopics => cases hstep; omega
    | membershipChange =>
      cases hstep
      by_cases hcr : cr = true <;>
        simp_all [gcCheckRebalance] <;> omega
    | rebalanceCompleted isErr =>
      by_cases h0 : run = 0
      · simp [gcStep, h0] at hstep
      · by_cases h1 : p = 0
        · simp only [gcStep, h0, h1, ne_eq, not_true_eq_false, if_false,
            ite_false, Option.some.injEq, reduceIte] at hstep
          subst hstep
          simp at hlt
          omega
        · simp [gcStep, h0, h1] at hstep
    | rebalanceResult =>
      by_cases h0 : p = 0
      · simp [gcStep, h0] at hstep
      · by_cases h1 : pe = true
        · simp only [gcStep, h0, h1, ite_false, ite_true, Option.some.injEq,
            reduceIte] at hstep
          subst hstep
          simp at hlt
        · simp only [gcStep, h0, h1, ite_false, Option.some.injEq,
            reduceIte, Bool.false_eq_true] at hstep
          subst hstep
          by_cases hsr : sr = true <;>
            simp_all [gcCheckRebalance] <;> omega
    | retryTimerFired =>
      rcases hrt : rt with _ | t <;> subst hrt
      · simp [gcStep] at hstep
      · simp only [gcStep, Option.some.injEq] at hstep
        subst hstep
        by_cases hcr : cr = true <;>
          simp_all [gcCheckRebalance] <;> omega
  · intro s e s' hstep hcf hct
    obtain ⟨sr, cr, run, p, pe, rt⟩ := s
    simp only at hcf
    cases e with
    | addTopicConsumer => cases hstep; simp_all
    | deleteTopicConsumer => cases hstep; simp_all
    | publishTopics => cases hstep; simp_all
    | membershipChange =>
      cases hstep
      simp_all [gcCheckRebalance]
    | rebalanceCompleted isErr =>
      by_cases h0 : run = 0
      · simp [gcStep, h0] at hstep
      · by_cases h1 : p = 0
        · simp only [gcStep, h0, h1, ne_eq, not_true_eq_false, if_false,
            ite_false, Option.some.injEq, reduceIte] at hstep
          subst hstep
          simp_all
        · simp [gcStep, h0, h1] at hstep
    | rebalanceResult => rfl
    | retryTimerFired =>
      rcases hrt : rt with _ | t <;> subst hrt
      · simp [gcStep] at hstep
      · simp only [gcStep, Option.some.injEq] at hstep
        subst hstep
        simp_all [gcCheckRebalance]
  · intro trace s' hrun
    have hinv : GcInv s' :=
      gcRun_inv backOffTimeout trace gcInit s' (by simp [GcInv, gcInit]) hrun
    refine ⟨hinv, ?_⟩
    unfold GcInv at hinv
    by_cases hcr : s'.canRebalance = true <;> simp [hcr] at hinv <;> omega

/-- C5 witness: the control-loop theorem applied to the concrete trace in
which a membership change spawns one rebalance: the reached state has one
running rebalance and satisfies the in-flight invariant. -/
theorem groupConsumer_single_rebalance_in_flight_witness :
    gcRun 30 gcInit [GcEvent.membershipChange]
      = some ⟨false, false, 1, 0, false, none⟩ ∧
    GcInv (⟨false, false, 1, 0, false, none⟩ : GcState) ∧
    (⟨false, false, 1, 0, false, none⟩ : GcState).running ≤ 1 := by
  have hx := (groupConsumer_single_rebalance_in_flight 30).2.2.2
    [GcEvent.membershipChange] ⟨false, false, 1, 0, false, none⟩ (by decide)
  exact ⟨by decide, hx.1, hx.2⟩

/-- C8: when a rebalance result arrives, `canRebalance` is set to true: on
an error result the handler also arms the retry timer with `BackOffTimeout`
and `continue`s (leaving the flags as set); on a success result the loop
falls through to the spawn check with `canRebalance = true`; and when the
armed retry timer fires, `shouldRebalance` is set to true again before the
spawn check runs — so a failed rebalance is retried once the backoff
elapses. -/
theorem groupConsumer_rebalance_retry (backOffTimeout : Int) :
    (∀ s s', gcStep backOffTimeout s .rebalanceResult = some s' →
      s.pendingErr = true →
      s'.canRebalance = true ∧ s'.retryTimer = some backOffTimeout ∧
        s'.shouldRebalance = s.shouldRebalance) ∧
    (∀ s s', gcStep backOffTimeout s .rebalanceResult = some s' →
      s.pendingErr = false →
      s' = gcCheckRebalance
        { s with canRebalance := true, pending := s.pending - 1 }) ∧
    (∀ s s' t, gcStep backOffTimeout s .retryTimerFired = some s' →
      s.retryTimer = some t →
      s' = gcCheckRebalance
        { s with shouldRebalance := true, retryTimer := none }) := by
  refine ⟨?_, ?_, ?_⟩
  · intro s s' hstep hpe
    obtain ⟨sr, cr, run, p, pe, rt⟩ := s
    simp only at hpe
    subst hpe
    by_cases h0 : p = 0
    · simp [gcStep, h0] at hstep
    · simp only [gcStep, h0, ite_false, ite_true, Option.some.injEq,
        reduceIte] at hstep
      subst hstep
      exact ⟨rfl, rfl, rfl⟩
  · intro s s' hstep hpe
    obtain ⟨sr, cr, run, p, pe, rt⟩ := s
    simp only at hpe
    subst hpe
    by_cases h0 : p = 0
    · simp [gcStep, h0] at hstep
    · simp only [gcStep, h0, ite_false, Option.some.injEq, reduceIte,
        Bool.false_eq_true] at hstep
      exact hstep.symm
  · intro s s' t hstep hrt
    obtain ⟨sr, cr, run, p, pe, rt⟩ := s
    simp only at hrt
    subst hrt
    simp only [gcStep, Option.some.injEq] at hstep
    exact hstep.symm

/-- C8 witness: the retry theorem applied to a concrete error result (the
timer gets armed with the backoff of 30) and to the concrete retry tick
(the spawn check then runs with `shouldRebalance = true`, launching the
retry rebalance). -/
theorem groupConsumer_rebalance_retry_witness :
    ((⟨false, true, 0, 0, true, some 30⟩ : GcState).canRebalance = true ∧
      (⟨false, true, 0, 0, true, some 30⟩ : GcState).retryTimer = some 30 ∧
      (⟨false, true, 0, 0, true, some 30⟩ : GcState).shouldRebalance
        = (⟨false, false, 0, 1, true, none⟩ : GcState).shouldRebalance) ∧
    (⟨false, false, 1, 0, false, none⟩ : GcState)
      = gcCheckRebalance
          { (⟨false, true, 0, 0, false, some 30⟩ : GcState) with
              shouldRebalance := true, retryTimer := none } :=
  ⟨(groupConsumer_rebalance_retry 30).1
      ⟨false, false, 0, 1, true, none⟩ ⟨false, true, 0, 0, true, some 30⟩
      (by decide) rfl,
    (groupConsumer_rebalance_retry 30).2.2
      ⟨false, true, 0, 0, false, some 30⟩ ⟨false, false, 1, 0, false, none⟩
      30 (by decide) rfl⟩

/-! ## Multiplexer rewiring (`rewireMultiplexer`, consumer.go:348-378)

A `topicGear` bundles the partition → exclusive-consumer map (here the set
of its keys, which is all the invariants mention) and whether a
multiplexer is currently present (`tg.multiplexer != nil`).  The function
first iterates the existing consumers, stopping and removing those whose
partition is no longer assigned — tearing the multiplexer down the first
time it changes anything — then spawns consumers for newly assigned
partitions (again tearing the multiplexer down on the first change), and
finally spawns a fresh multiplexer when none is present and at least one
exclusive consumer exists. -/

structure TopicGear where
  exclusiveConsumers : Finset Int
  multiplexer : Bool
  deriving DecidableEq

/-- Phase 1, consumer.go:350-360: the removal loop over the current
consumer map entries. -/
def rewireRemovePhase (assigned : Finset Int) :
    List Int → Finset Int × Bool → Finset Int × Bool
  | [], st => st
  | partition :: rest, (cons, mux) =>
    if partition ∉ assigned then
      rewireRemovePhase assigned rest (cons.erase partition, false)
    else
      rewireRemovePhase assigned rest (cons, mux)

/-- Phase 2, consumer.go:361-370: the spawn loop over the assigned
partitions. -/
def rewireAddPhase : List Int → Finset Int × Bool → Finset Int × Bool
  | [], st => st
  | partition :: rest, (cons, mux) =>
    if partition ∉ cons then
      rewireAddPhase rest (insert partition cons, false)
    else
      rewireAddPhase rest (cons, mux)

/-- `rewireMultiplexer` (consumer.go:348-378).  Go's map iteration order is
unspecified; the loops are folded over the keys in ascending order, and the
membership lemmas below show the outcome does not depend on the order. -/
def rewireMultiplexer (tg : TopicGear) (assigned : Finset Int) : TopicGear :=
  let st1 := rewireRemovePhase assigned
    (tg.exclusiveConsumers.sort (· ≤ ·))
    (tg.exclusiveConsumers, tg.multiplexer)
  let st2 := rewireAddPhase (assigned.sort (· ≤ ·)) st1
  if st2.2 = false ∧ st2.1 ≠ ∅ then ⟨st2.1, true⟩ else ⟨st2.1, st2.2⟩

/-- The cleanup at the end of `rebalance` (consumer.go:333-338): gears left
with no multiplexer are dropped from `topicGears`. -/
def rebalanceCleanup (topicGears : List (String × TopicGear)) :
    List (String × TopicGear) :=
  topicGears.filter (fun g => g.2.multiplexer)

lemma mem_rewireRemovePhase (assigned : Finset Int) (l : List Int) :
    ∀ (cons : Finset Int) (mux : Bool) (x : Int),
      (x ∈ (rewireRemovePhase assigned l (cons, mux)).1 ↔
        x ∈ cons ∧ (x ∈ assigned ∨ x ∉ l)) := by
  induction l with
  | nil => intro cons mux x; simp [rewireRemovePhase]
  | cons partition rest ih =>
    intro cons mux x
    by_cases hp : partition ∈ assigned
    · rw [rewireRemovePhase, if_neg (by simpa using hp), ih]
      by_cases hxp : x = partition
      · subst hxp
        simp [hp]
      · simp [hxp]
    · rw [rewireRemovePhase, if_pos (by simpa using hp), ih]
      by_cases hxp : x = partition
      · subst hxp
        simp [hp]
      · simp [hxp]

lemma mem_rewireAddPhase (l : List Int) :
    ∀ (cons : Finset Int) (mux : Bool) (x : Int),
      (x ∈ (rewireAddPhase l (cons, mux)).1 ↔ x ∈ cons ∨ x ∈ l) := by
  induction l with
  | nil => intro cons mux x; simp [rewireAddPhase]
  | cons partition rest ih =>
    intro cons mux x
    by_cases hp : partition ∈ cons
    · rw [rewireAddPhase, if_neg (by simpa using hp), ih]
      by_cases hxp : x = partition
      · subst hxp
        simp [hp]
      · simp [hxp]
    · rw [rewireAddPhase, if_pos (by simpa using hp), ih]
      by_cases hxp : x = partition
      · subst hxp
        simp
      · simp [hxp]

lemma rewireRemovePhase_mux (assigned : Finset Int) (l : List Int) :
    ∀ (cons : Finset Int) (mux : Bool),
      (rewireRemovePhase assigned l (cons, mux)).2 = true →
      mux = true ∧ ∀ p ∈ l, p ∈ assigned := by
  induction l with
  | nil =>
    intro cons mux h
    exact ⟨h, by intro p hp; cases hp⟩
  | cons partition rest ih =>
    intro cons mux h
    by_cases hp : partition ∈ assigned
    · rw [rewireRemovePhase, if_neg (by simpa using hp)] at h
      obtain ⟨h1, h2⟩ := ih _ _ h
      refine ⟨h1, ?_⟩
      intro p hpl
      rcases List.mem_cons.mp hpl with rfl | hpl
      · exact hp
      · exact h2 p hpl
    · rw [rewireRemovePhase, if_pos (by simpa using hp)] at h
      obtain ⟨h1, _⟩ := ih _ _ h
      exact absurd h1 (by simp)

/-- C6: after every completed `rewireMultiplexer(gear, assigned)` call on a
gear satisfying the entry invariant (a present multiplexer implies at
least one exclusive consumer — true of freshly created gears, which have
neither, and preserved by every call), the `topicGear` invariants hold:
the key set of `exclusiveConsumers` equals the assigned partition set, and
the multiplexer is present iff `exclusiveConsumers` is non-empty.
Moreover the cleanup at the end of `rebalance` keeps exactly the gears
that still have a multiplexer: gears with no assigned partitions (hence no
multiplexer) are removed from `topicGears`. -/
theorem rewireMultiplexer_invariants (tg : TopicGear) (assigned : Finset Int)
    (hinv : tg.multiplexer = true → tg.exclusiveConsumers ≠ ∅) :
    (rewireMultiplexer tg assigned).exclusiveConsumers = assigned ∧
    ((rewireMultiplexer tg assigned).multiplexer = true ↔ assigned ≠ ∅) ∧
    (∀ (topicGears : List (String × TopicGear)) (g : String × TopicGear),
      g ∈ rebalanceCleanup topicGears ↔
        g ∈ topicGears ∧ g.2.multiplexer = true) := by
  set R := rewireRemovePhase assigned
    (tg.exclusiveConsumers.sort (· ≤ ·))
    (tg.exclusiveConsumers, tg.multiplexer) with hR
  set st2 := rewireAddPhase (assigned.sort (· ≤ ·)) R with hst2
  have hmem1 : ∀ x, x ∈ R.1 ↔ x ∈ tg.exclusiveConsumers ∧ x ∈ assigned := by
    intro x
    rw [hR, mem_rewireRemovePhase]
    constructor
    · rintro ⟨hc, hx | hx⟩
      · exact ⟨hc, hx⟩
      · exact absurd ((Finset.mem_sort _).mpr hc) hx
    · rintro ⟨hc, hx⟩
      exact ⟨hc, Or.inl hx⟩
  have hmem2 : ∀ x, x ∈ st2.1 ↔ x ∈ assigned := by
    intro x
    have h2 : x ∈ (rewireAddPhase (assigned.sort (· ≤ ·)) (R.1, R.2)).1 ↔
        x ∈ R.1 ∨ x ∈ assigned.sort (· ≤ ·) := mem_rewireAddPhase _ _ _ x
    rw [hst2]
    refine Iff.trans h2 ?_
    constructor
    · rintro (hx | hx)
      · exact ((hmem1 x).mp hx).2
      · exact (Finset.mem_sort _).mp hx
    · intro hx
      exact Or.inr ((Finset.mem_sort _).mpr hx)
  have hkeys : st2.1 = assigned := Finset.ext hmem2
  have hfinal : rewireMultiplexer tg assigned
      = if st2.2 = false ∧ st2.1 ≠ ∅ then ⟨st2.1, true⟩
        else ⟨st2.1, st2.2⟩ := by
    rw [rewireMultiplexer]
  refine ⟨?_, ?_, ?_⟩
  · rw [hfinal]
    by_cases hc : st2.2 = false ∧ st2.1 ≠ ∅
    · rw [if_pos hc]
      exact hkeys
    · rw [if_neg hc]
      exact hkeys
  · rw [hfinal]
    by_cases hA : assigned = ∅
    · have hsortEmpty : assigned.sort (· ≤ ·) = [] := by
        rw [hA]
        exact Finset.sort_empty _
      have hst2R : st2 = R := by
        rw [hst2, hsortEmpty, rewireAddPhase]
      have hRfalse : R.2 = false := by
        by_contra hcon
        have hRtrue : R.2 = true := by
          cases h : R.2
          · exact absurd h hcon
          · rfl
        obtain ⟨hm, hall⟩ := rewireRemovePhase_mux assigned
          (tg.exclusiveConsumers.sort (· ≤ ·)) tg.exclusiveConsumers
          tg.multiplexer (by rw [← hR]; exact hRtrue)
        have hempty : tg.exclusiveConsumers = ∅ := by
          by_contra hne
          obtain ⟨x, hx⟩ := Finset.nonempty_iff_ne_empty.mpr hne
          have := hall x ((Finset.mem_sort _).mpr hx)
          rw [hA] at this
          exact absurd this (Finset.not_mem_empty x)
        exact absurd hempty (hinv hm)
      have hcond : ¬(st2.2 = false ∧ st2.1 ≠ ∅) := by
        rintro ⟨_, hne⟩
        rw [hkeys] at hne
        exact hne hA
      rw [if_neg hcond]
      simp only [hst2R, hRfalse, hA]
      simp
    · by_cases hm2 : st2.2 = false
      · rw [if_pos ⟨hm2, by rw [hkeys]; exact hA⟩]
        simp [hA]
      · rw [if_neg (fun hc => hm2 hc.1)]
        have : st2.2 = true := by
          cases h : st2.2
          · exact absurd h hm2
          · rfl
        simp [this, hA]
  · intro topicGears g
    simp [rebalanceCleanup, List.mem_filter]

/-- C6 witness: the invariant theorem evaluated on a concrete gear with a
live multiplexer and consumers for partitions `{1, 2}`, rewired to the
assignment `{2, 3}`. -/
theorem rewireMultiplexer_invariants_witness :
    (rewireMultiplexer ⟨{1, 2}, true⟩ ({2, 3} : Finset Int)).exclusiveConsumers
        = ({2, 3} : Finset Int) ∧
    ((rewireMultiplexer ⟨{1, 2}, true⟩
        ({2, 3} : Finset Int)).multiplexer = true ↔
      ({2, 3} : Finset Int) ≠ ∅) :=
  ⟨(rewireMultiplexer_invariants ⟨{1, 2}, true⟩ {2, 3} (by decide)).1,
    (rewireMultiplexer_invariants ⟨{1, 2}, true⟩ {2, 3} (by decide)).2.1⟩

end KafkaPixy
